import Mathlib

/-!
Verification development for the osint-liar/public-packages repository.

The repository holds two Python utilities:
* `build_index.py`: walks a directory, parses every `*.json` descriptor file,
  extracts a fixed field set from the first element of the parsed array,
  computes a SHA-256 fingerprint over the sorted field values, and collects
  one manifest entry per descriptor.
* `convert_repo.py`: recursively rewrites all JSON object keys to camelCase
  in place.

This file shallowly embeds both programs.  Python runtime values produced by
`json.load` are modelled by `PyVal` (floats are not needed by any descriptor
field in the claims and are left out of the model; JSON numbers appear as
integers).  Python's `str()` / `repr()` textual forms are modelled for the
ASCII fragment exercised by the tools.  The directory walk is modelled by an
explicit list of discovered files, each carrying its parse outcome; printing
and file writing are not observable in the claims and are not modelled.
-/

namespace OsintPackages

/-- A Python value as produced by `json.load`: `None`, booleans, integers,
strings, lists and string-keyed dicts (in insertion order). -/
inductive PyVal where
  | none : PyVal
  | bool : Bool → PyVal
  | int : Int → PyVal
  | str : String → PyVal
  | list : List PyVal → PyVal
  | dict : List (String × PyVal) → PyVal

/-- Lower-case hexadecimal digit character for a value below 16. -/
def hexDigit (d : Nat) : Char :=
  if d < 10 then Char.ofNat (48 + d) else Char.ofNat (87 + d)

/-- Decimal digits of a natural number, fuelled so that the kernel can
evaluate it. -/
def natDigitsGo : Nat → Nat → List Char
  | 0, _ => []
  | fuel + 1, n =>
    if n < 10 then [Char.ofNat (48 + n)]
    else natDigitsGo fuel (n / 10) ++ [Char.ofNat (48 + n % 10)]

/-- Decimal string of a natural number (Python `str` of a non-negative int). -/
def natStr (n : Nat) : String := String.mk (natDigitsGo (n + 1) n)

/-- Python `str()` of an integer. -/
def intStr : Int → String
  | Int.ofNat m => natStr m
  | Int.negSucc m => "-" ++ natStr (m + 1)

/-- One character of Python `repr` of a string, given the chosen quote
character: backslash and the quote are escaped, newline, carriage return and
tab use short escapes, and other control characters use hexadecimal escapes. -/
def pyReprEscape (q : Char) (c : Char) : List Char :=
  if c == '\\' then ['\\', '\\']
  else if c == q then ['\\', q]
  else if c == '\n' then ['\\', 'n']
  else if c == '\r' then ['\\', 'r']
  else if c == '\t' then ['\\', 't']
  else if c.toNat < 32 || c.toNat == 127 then
    ['\\', 'x', hexDigit (c.toNat / 16), hexDigit (c.toNat % 16)]
  else [c]

/-- Python `repr` of a string: single quotes are preferred, double quotes are
used when the string contains a single quote but no double quote. -/
def pyReprStr (s : String) : String :=
  if s.data.contains '\'' && !(s.data.contains '"') then
    String.mk ('"' :: (s.data.map (pyReprEscape '"')).flatten ++ ['"'])
  else
    String.mk ('\'' :: (s.data.map (pyReprEscape '\'')).flatten ++ ['\''])

mutual

/-- Python `repr()` of a value (used by `str()` for values inside
containers). -/
def pyRepr : PyVal → String
  | .none => "None"
  | .bool true => "True"
  | .bool false => "False"
  | .int n => intStr n
  | .str s => pyReprStr s
  | .list l => "[" ++ pyReprList l ++ "]"
  | .dict d => "\x7b" ++ pyReprDict d ++ "\x7d"

/-- Comma-separated reprs of the elements of a list. -/
def pyReprList : List PyVal → String
  | [] => ""
  | [v] => pyRepr v
  | v :: w :: rest => pyRepr v ++ ", " ++ pyReprList (w :: rest)

/-- Comma-separated `key: value` reprs of the entries of a dict. -/
def pyReprDict : List (String × PyVal) → String
  | [] => ""
  | [(k, v)] => pyReprStr k ++ ": " ++ pyRepr v
  | (k, v) :: p :: rest => pyReprStr k ++ ": " ++ pyRepr v ++ ", " ++ pyReprDict (p :: rest)

end

/-- Python `str()` of a value: a string is itself, everything else uses its
`repr` form (`str(None)` is the four-character string `None`). -/
def pyStr : PyVal → String
  | .str s => s
  | v => pyRepr v

/-- UTF-8 encoding of a single character as a byte list. -/
def encodeChar (c : Char) : List Nat :=
  let v := c.toNat
  if v < 128 then [v]
  else if v < 2048 then [192 + v / 64, 128 + v % 64]
  else if v < 65536 then [224 + v / 4096, 128 + (v / 64) % 64, 128 + v % 64]
  else [240 + v / 262144, 128 + (v / 4096) % 64, 128 + (v / 64) % 64, 128 + v % 64]

/-- UTF-8 encoding of a string as a byte list (Python `s.encode("utf-8")`). -/
def utf8Bytes (s : String) : List Nat :=
  (s.data.map encodeChar).flatten

/-- Truncation to a 32-bit word. -/
def w32 (n : Nat) : Nat := n % 4294967296

/-- Right rotation of a 32-bit word by k bit positions. -/
def rot32 (k x : Nat) : Nat := w32 ((x >>> k) ||| (x <<< (32 - k)))

/-- SHA-256 upper-case sigma 0 round function. -/
def sumA (x : Nat) : Nat := (rot32 2 x) ^^^ (rot32 13 x) ^^^ (rot32 22 x)

/-- SHA-256 upper-case sigma 1 round function. -/
def sumE (x : Nat) : Nat := (rot32 6 x) ^^^ (rot32 11 x) ^^^ (rot32 25 x)

/-- SHA-256 lower-case sigma 0 schedule function. -/
def sig0 (x : Nat) : Nat := (rot32 7 x) ^^^ (rot32 18 x) ^^^ (x >>> 3)

/-- SHA-256 lower-case sigma 1 schedule function. -/
def sig1 (x : Nat) : Nat := (rot32 17 x) ^^^ (rot32 19 x) ^^^ (x >>> 10)

/-- The 64 SHA-256 round constants (decimal). -/
def shaK : List Nat :=
  [1116352408, 1899447441, 3049323471, 3921009573, 961987163, 1508970993,
   2453635748, 2870763221, 3624381080, 310598401, 607225278, 1426881987,
   1925078388, 2162078206, 2614888103, 3248222580, 3835390401, 4022224774,
   264347078, 604807628, 770255983, 1249150122, 1555081692, 1996064986,
   2554220882, 2821834349, 2952996808, 3210313671, 3336571891, 3584528711,
   113926993, 338241895, 666307205, 773529912, 1294757372, 1396182291,
   1695183700, 1986661051, 2177026350, 2456956037, 2730485921, 2820302411,
   3259730800, 3345764771, 3516065817, 3600352804, 4094571909, 275423344,
   430227734, 506948616, 659060556, 883997877, 958139571, 1322822218,
   1537002063, 1747873779, 1955562222, 2024104815, 2227730452, 2361852424,
   2428436474, 2756734187, 3204031479, 3329325298]

/-- The initial SHA-256 hash state (decimal). -/
def shaH0 : List Nat :=
  [1779033703, 3144134277, 1013904242, 2773480762,
   1359893119, 2600822924, 528734635, 1541459225]

/-- Big-endian 8-byte encoding of a natural number. -/
def be64 (n : Nat) : List Nat :=
  [(n >>> 56) % 256, (n >>> 48) % 256, (n >>> 40) % 256, (n >>> 32) % 256,
   (n >>> 24) % 256, (n >>> 16) % 256, (n >>> 8) % 256, n % 256]

/-- SHA-256 message padding: append the 0x80 byte, zero bytes up to 56 mod 64,
and the 64-bit big-endian bit length. -/
def padMsg (msg : List Nat) : List Nat :=
  let z := (119 - msg.length % 64) % 64
  msg ++ [128] ++ List.replicate z 0 ++ be64 (8 * msg.length)

/-- Groups of four bytes interpreted as big-endian 32-bit words. -/
def toWords : List Nat → List Nat
  | a :: b :: c :: d :: rest => (a * 16777216 + b * 65536 + c * 256 + d) :: toWords rest
  | _ => []

/-- One extension step of the SHA-256 message schedule. -/
def schedStep (w : List Nat) : List Nat :=
  w ++ [w32 (sig1 (w.getD (w.length - 2) 0) + w.getD (w.length - 7) 0 +
             sig0 (w.getD (w.length - 15) 0) + w.getD (w.length - 16) 0)]

/-- The SHA-256 message schedule: 16 block words extended to 64. -/
def schedule (ws : List Nat) : List Nat :=
  (List.range 48).foldl (fun w _ => schedStep w) ws

/-- One SHA-256 compression round. -/
def compressStep (st : List Nat) (kw : Nat × Nat) : List Nat :=
  match st with
  | [a, b, c, d, e, f, g, h] =>
    let ch := (e &&& f) ^^^ ((4294967295 - e) &&& g)
    let maj := (a &&& b) ^^^ (a &&& c) ^^^ (b &&& c)
    let t1 := w32 (h + sumE e + ch + kw.1 + kw.2)
    let t2 := w32 (sumA a + maj)
    [w32 (t1 + t2), a, b, c, w32 (d + t1), e, f, g]
  | st => st

/-- Process one 64-byte block into the running hash state. -/
def processBlock (h : List Nat) (block : List Nat) : List Nat :=
  let ws := schedule (toWords block)
  let st := (shaK.zip ws).foldl compressStep h
  (h.zip st).map (fun p => w32 (p.1 + p.2))

/-- Split a byte list into 64-byte chunks; the fuel argument bounds the
number of chunks so the recursion is structural. -/
def chunksGo : Nat → List Nat → List (List Nat)
  | 0, _ => []
  | _, [] => []
  | n + 1, a :: l => ((a :: l).take 64) :: chunksGo n ((a :: l).drop 64)

/-- Split a byte list into 64-byte chunks. -/
def chunks64 (l : List Nat) : List (List Nat) :=
  chunksGo l.length l

/-- Eight hexadecimal digits of a 32-bit word, most significant first. -/
def toHexW (w : Nat) : String :=
  String.mk ((List.range 8).map (fun i => hexDigit ((w >>> (4 * (7 - i))) % 16)))

/-- SHA-256 hexadecimal digest of a byte list (`hashlib.sha256(...).hexdigest()`;
feeding the bytes through repeated `update` calls hashes their
concatenation). -/
def sha256Hex (msg : List Nat) : String :=
  String.join (((chunks64 (padMsg msg)).foldl processBlock shaH0).map toHexW)

/-- Lexicographic code-point comparison of character lists, the order Python
uses to sort strings. -/
def chCmpLe : List Char → List Char → Bool
  | [], _ => true
  | _ :: _, [] => false
  | c :: cs, d :: ds =>
    if c.toNat < d.toNat then true
    else if d.toNat < c.toNat then false
    else chCmpLe cs ds

/-- The string order used by Python `sorted` on strings. -/
def pyStrLe (a b : String) : Prop := chCmpLe a.data b.data = true

instance pyStrLeDec : DecidableRel pyStrLe :=
  fun a b => inferInstanceAs (Decidable (chCmpLe a.data b.data = true))

/-- Python `sorted` on a list of strings. -/
def pySortedStrings (l : List String) : List String :=
  List.insertionSort pyStrLe l

/-- Embedding of `calculate_sha256(file_path, fields_dict)` from
`build_index.py`: the keys are sorted, each value is converted with `str`
(absent keys would fall back to the empty string) and its UTF-8 bytes are fed
into the hash; the `file_path` argument is unused by the source as well. -/
def calculate_sha256 (file_path : String) (fields_dict : List (String × PyVal)) : String :=
  sha256Hex (((pySortedStrings (fields_dict.map Prod.fst)).map
    (fun key => utf8Bytes (pyStr ((fields_dict.lookup key).getD (PyVal.str ""))))).flatten)

/-- Embedding of Python `Path(file).stem`: the file name without its final
suffix, where a suffix needs a dot that is neither the first nor the last
character. -/
def pyStem (fname : String) : String :=
  let l := fname.data
  let suffixLen := (l.reverse.takeWhile (fun c => c != '.')).length
  if l.reverse.contains '.' then
    let i := l.length - suffixLen - 1
    if 0 < i ∧ i < l.length - 1 then String.mk (l.take i) else fname
  else fname

/-- Python `s.endswith(t)` for strings. -/
def pyEndsWith (s t : String) : Bool :=
  decide (t.data.length ≤ s.data.length) &&
    s.data.drop (s.data.length - t.data.length) == t.data

/-- The Python exceptions that field extraction in `process_json_files` can
raise: `content[0]` raises IndexError on an empty list or string, KeyError on
a dict (JSON object keys are strings, not the integer `0`) and TypeError on
the other scalars, and `.get(...)` raises AttributeError on anything that is
not a dict. -/
inductive PyErr where
  | indexError : PyErr
  | keyError : PyErr
  | typeError : PyErr
  | attributeError : PyErr
deriving DecidableEq

/-- Embedding of the Python subscript `content[0]`. -/
def pyGetItemZero : PyVal → Except PyErr PyVal
  | .list [] => .error .indexError
  | .list (x :: _) => .ok x
  | .str s =>
    match s.data with
    | [] => .error .indexError
    | c :: _ => .ok (.str (String.mk [c]))
  | .dict _ => .error .keyError
  | .none => .error .typeError
  | .bool _ => .error .typeError
  | .int _ => .error .typeError

/-- The eight descriptor field names read by `process_json_files`, in the
order of the `fields_dict` literal. -/
def recognizedFields : List String :=
  ["Uuid", "Label", "Version", "Description", "UpdatedOn", "Script", "FieldMapping", "Headers"]

/-- The `fields_dict` built from a descriptor object: each recognized field
name is looked up with Python `dict.get`, which yields `None` when the key is
absent. -/
def descriptor_fields (d : List (String × PyVal)) : List (String × PyVal) :=
  recognizedFields.map (fun k => (k, (d.lookup k).getD PyVal.none))

/-- Embedding of the body of the per-file loop of `process_json_files` after a
successful parse (lines 41 to 81 of `build_index.py`): `content[0]` is
subscripted, the eight recognized fields are read with `.get` (every `.get`
call raises AttributeError unless `content[0]` is a dict, and returns `None`
for a missing key), the checksum and URL are computed, and the manifest entry
dict is assembled.  `rp` is the forward-slash relative path of the file and
`fname` its base name. -/
def indexEntry (base_url rp fname : String) (content : PyVal) :
    Except PyErr (List (String × PyVal)) :=
  match pyGetItemZero content with
  | .error e => .error e
  | .ok first =>
    match first with
    | .dict d =>
      let fields_dict := descriptor_fields d
      let sha256 := calculate_sha256 rp fields_dict
      let url := base_url ++ "/" ++ rp
      .ok [("Name", PyVal.str (pyStem fname)),
           ("Uuid", (d.lookup "Uuid").getD PyVal.none),
           ("Label", (d.lookup "Label").getD PyVal.none),
           ("Version", (d.lookup "Version").getD PyVal.none),
           ("Description", (d.lookup "Description").getD PyVal.none),
           ("UpdatedOn", (d.lookup "UpdatedOn").getD PyVal.none),
           ("Sha256", PyVal.str sha256),
           ("Url", PyVal.str url),
           ("Type", PyVal.str "DiscoveryPlugin")]
    | _ => .error .attributeError

/-- One file met by the `os.walk` traversal: its forward-slash path relative
to the scan root, its base name, and the result of `json.load` on its content
(`Option.none` models a `json.JSONDecodeError`). -/
structure ScanFile where
  relPath : String
  name : String
  parsed : Option PyVal

/-- Embedding of `process_json_files(directory, base_url)`: the walk is given
as the list of discovered files in traversal order.  Files whose name does
not end in `.json` are ignored, a parse failure is reported and skipped, and
any exception raised while extracting fields propagates, aborting the whole
build (the printed skip message is not modelled). -/
def process_json_files (base_url : String) :
    List ScanFile → Except PyErr (List (List (String × PyVal)))
  | [] => .ok []
  | f :: fs =>
    if pyEndsWith f.name ".json" then
      match f.parsed with
      | Option.none => process_json_files base_url fs
      | some content =>
        match indexEntry base_url f.relPath f.name content with
        | .error e => .error e
        | .ok entry =>
          match process_json_files base_url fs with
          | .error e => .error e
          | .ok rest => .ok (entry :: rest)
    else process_json_files base_url fs

/-- The manifest entries of the well-behaved files of a walk: `.json` files
that parse and whose field extraction succeeds. -/
def goodEntries (base_url : String) (fs : List ScanFile) : List (List (String × PyVal)) :=
  fs.filterMap (fun f =>
    if pyEndsWith f.name ".json" then
      match f.parsed with
      | some c => (indexEntry base_url f.relPath f.name c).toOption
      | Option.none => Option.none
    else Option.none)

/-- A file that the per-file loop handles without raising: either it is not a
`.json` file, or it parses and its field extraction succeeds. -/
def scanOkB (base_url : String) (f : ScanFile) : Bool :=
  if pyEndsWith f.name ".json" then
    match f.parsed with
    | some c => (indexEntry base_url f.relPath f.name c).toOption.isSome
    | Option.none => false
  else true

/-- The concatenated canonical string whose UTF-8 bytes `calculate_sha256`
hashes: the `str` forms of the values of the sorted present keys, joined
without delimiters. -/
def shaMsgStr (fields_dict : List (String × PyVal)) : String :=
  String.join ((pySortedStrings (fields_dict.map Prod.fst)).map
    (fun key => pyStr ((fields_dict.lookup key).getD (PyVal.str ""))))

/-- The fingerprint described by the specification sentence under scrutiny:
as `calculate_sha256`, except that a `null` value is claimed to contribute
the empty string to the hashed concatenation. -/
def claimCanon : Option PyVal → String
  | some PyVal.none => ""
  | some v => pyStr v
  | Option.none => ""

/-- The fingerprint computed according to the claim wording, with `null`
contributing the empty string. -/
def claimFingerprint (fields_dict : List (String × PyVal)) : String :=
  sha256Hex (utf8Bytes (String.join ((pySortedStrings (fields_dict.map Prod.fst)).map
    (fun key => claimCanon (fields_dict.lookup key)))))

/-- Python whitespace in the ASCII range, as stripped by `str.strip()` and
matched by the regex class `\s`. -/
def isPySpace (c : Char) : Bool :=
  c == ' ' || c == '\t' || c == '\n' || c == '\r' || c == '\x0b' || c == '\x0c'

/-- A character of the regex class `[_\-\s]` of `CAMEL_RE`. -/
def isSepCh (c : Char) : Bool := c == '_' || c == '-' || isPySpace c

/-- A character of the regex class `[a-zA-Z0-9]`, the capture group of
`CAMEL_RE`. -/
def isAsciiAlnum (c : Char) : Bool :=
  (97 ≤ c.toNat && c.toNat ≤ 122) || (65 ≤ c.toNat && c.toNat ≤ 90) ||
    (48 ≤ c.toNat && c.toNat ≤ 57)

/-- Python `str.strip()`: drop leading and trailing whitespace. -/
def stripL (l : List Char) : List Char :=
  ((l.dropWhile isPySpace).reverse.dropWhile isPySpace).reverse

/-- Python `str.lower()` on the ASCII fragment. -/
def lowerL (l : List Char) : List Char := l.map Char.toLower

/-- Embedding of `CAMEL_RE.sub(lambda m: m.group(1).upper(), s2)` with
`CAMEL_RE = [_\-\s]+([a-zA-Z0-9])`: the scanner walks left to right; a match
is a maximal separator run immediately followed by an alphanumeric character,
which is replaced by that character upper-cased; a separator run not followed
by an alphanumeric matches nowhere and is copied through.  The fuel argument
bounds the number of scanner steps so the recursion is structural. -/
def camelSubGo : Nat → List Char → List Char
  | 0, l => l
  | _ + 1, [] => []
  | n + 1, c :: rest =>
    if isSepCh c then
      match rest.dropWhile isSepCh with
      | [] => c :: rest
      | d :: rest2 =>
        if isAsciiAlnum d then Char.toUpper d :: camelSubGo n rest2
        else c :: rest.takeWhile isSepCh ++ d :: camelSubGo n rest2
    else c :: camelSubGo n rest

/-- The regex substitution of `to_camel` on a character list. -/
def camelSub (l : List Char) : List Char := camelSubGo l.length l

/-- Embedding of `to_camel` from `convert_repo.py`: an empty key is returned
unchanged; a key containing an underscore, a hyphen or a space character is
stripped, lower-cased and run through the regex substitution; any other key
has its first character lower-cased. -/
def to_camel (s : String) : String :=
  match s.data with
  | [] => s
  | c :: rest =>
    if (c :: rest).contains '_' || (c :: rest).contains '-' || (c :: rest).contains ' ' then
      String.mk (camelSub (lowerL (stripL (c :: rest))))
    else String.mk (Char.toLower c :: rest)

/-- The amended description of the substitution, written as an independent
character-by-character scan: a separator is deleted exactly when the next
non-separator character exists and is alphanumeric, and an alphanumeric
character is upper-cased exactly when it directly follows a separator. -/
def camelRuleGo : Bool → List Char → List Char
  | _, [] => []
  | prevSep, c :: rest =>
    if isSepCh c then
      match rest.dropWhile isSepCh with
      | d :: _ =>
        if isAsciiAlnum d then camelRuleGo true rest
        else c :: camelRuleGo true rest
      | [] => c :: camelRuleGo true rest
    else if prevSep && isAsciiAlnum c then Char.toUpper c :: camelRuleGo false rest
    else c :: camelRuleGo false rest

/-- The amended claim's key-casing rule: strip and lower-case a key that
contains an underscore, hyphen or space, then delete each separator run that
is immediately followed by an alphanumeric character while upper-casing that
character, keeping other separator runs; lower-case only the first character
of any other key. -/
def camelSpecAmended (s : String) : String :=
  match s.data with
  | [] => s
  | c :: rest =>
    if (c :: rest).contains '_' || (c :: rest).contains '-' || (c :: rest).contains ' ' then
      String.mk (camelRuleGo false (lowerL (stripL (c :: rest))))
    else String.mk (Char.toLower c :: rest)

/-- The original claim's deletion rule, as worded: every separator run is
deleted and the character following it (if any) is upper-cased, with no
stripping and no alphanumeric restriction.  Fuelled for kernel evaluation. -/
def claimDelRunsGo : Nat → List Char → List Char
  | 0, l => l
  | _ + 1, [] => []
  | n + 1, c :: rest =>
    if isSepCh c then
      match rest.dropWhile isSepCh with
      | [] => []
      | d :: rest2 => Char.toUpper d :: claimDelRunsGo n rest2
    else c :: claimDelRunsGo n rest

/-- The key-casing function described by the claim sentence: a key containing
an underscore, hyphen or whitespace is lower-cased and its separator runs are
deleted with the following character upper-cased; a key with no separators
has only its first character lower-cased. -/
def camelClaimRule (s : String) : String :=
  match s.data with
  | [] => s
  | c :: rest =>
    if (c :: rest).any isSepCh then
      String.mk (claimDelRunsGo (c :: rest).length (lowerL (c :: rest)))
    else String.mk (Char.toLower c :: rest)

/-- Python dict assignment `out[ck] = value`: an existing key keeps its
position and gets the new value, a new key is appended. -/
def pyDictSet : List (String × PyVal) → String → PyVal → List (String × PyVal)
  | [], k, v => [(k, v)]
  | (k0, v0) :: rest, k, v =>
    if k0 == k then (k0, v) :: rest
    else (k0, v0) :: pyDictSet rest k v

mutual

/-- Embedding of `camelize_keys_deep` from `convert_repo.py`: lists are
mapped recursively, dict keys are passed through `to_camel` while the dict is
rebuilt by repeated assignment, and every other value is returned
unchanged (JSON object keys are already strings, so `str(k)` is `k`). -/
def camelize_keys_deep : PyVal → PyVal
  | .list l => .list (camelizeListGo l)
  | .dict d => .dict (camelizeDictGo d [])
  | v => v

/-- The recursion of `camelize_keys_deep` over the elements of a list. -/
def camelizeListGo : List PyVal → List PyVal
  | [] => []
  | v :: vs => camelize_keys_deep v :: camelizeListGo vs

/-- The rebuild loop of `camelize_keys_deep` over the items of a dict, with
the output dict as accumulator. -/
def camelizeDictGo : List (String × PyVal) → List (String × PyVal) → List (String × PyVal)
  | [], out => out
  | (k, v) :: rest, out =>
    camelizeDictGo rest (pyDictSet out (to_camel k) (camelize_keys_deep v))

end

/-- One character of the JSON string escaping of `json.dumps` (with
`ensure_ascii=False`): quote, backslash and the short control escapes, other
control characters as a four-digit unicode escape. -/
def jsonEscapeChar (c : Char) : List Char :=
  if c == '"' then ['\\', '"']
  else if c == '\\' then ['\\', '\\']
  else if c == '\n' then ['\\', 'n']
  else if c == '\r' then ['\\', 'r']
  else if c == '\t' then ['\\', 't']
  else if c == '\x08' then ['\\', 'b']
  else if c == '\x0c' then ['\\', 'f']
  else if c.toNat < 32 then
    ['\\', 'u', '0', '0', hexDigit (c.toNat / 16), hexDigit (c.toNat % 16)]
  else [c]

/-- A JSON string literal as serialized by `json.dumps`. -/
def jsonQuote (s : String) : String :=
  String.mk ('"' :: (s.data.map jsonEscapeChar).flatten ++ ['"'])

/-- A run of spaces used for indentation. -/
def spaces (n : Nat) : String := String.mk (List.replicate n ' ')

mutual

/-- Embedding of `json.dumps(data, ensure_ascii=False, indent=2)` at a given
current indentation depth. -/
def dumpVal (ind : Nat) : PyVal → String
  | .none => "null"
  | .bool true => "true"
  | .bool false => "false"
  | .int n => intStr n
  | .str s => jsonQuote s
  | .list [] => "[]"
  | .list (v :: vs) =>
    "[\n" ++ dumpItems (ind + 2) (v :: vs) ++ "\n" ++ spaces ind ++ "]"
  | .dict [] => "\x7b\x7d"
  | .dict (p :: ps) =>
    "\x7b\n" ++ dumpPairs (ind + 2) (p :: ps) ++ "\n" ++ spaces ind ++ "\x7d"

/-- Serialization of the elements of a non-empty JSON array, one per line. -/
def dumpItems (ind : Nat) : List PyVal → String
  | [] => ""
  | [v] => spaces ind ++ dumpVal ind v
  | v :: w :: vs => spaces ind ++ dumpVal ind v ++ ",\n" ++ dumpItems ind (w :: vs)

/-- Serialization of the items of a non-empty JSON object, one per line. -/
def dumpPairs (ind : Nat) : List (String × PyVal) → String
  | [] => ""
  | [(k, v)] => spaces ind ++ jsonQuote k ++ ": " ++ dumpVal ind v
  | (k, v) :: p :: ps =>
    spaces ind ++ jsonQuote k ++ ": " ++ dumpVal ind v ++ ",\n" ++ dumpPairs ind (p :: ps)

end

/-- Embedding of `dump_json_pretty`: pretty-print with two-space indentation
and a trailing newline. -/
def dump_json_pretty (v : PyVal) : String := dumpVal 0 v ++ "\n"

/-- The per-file change test of the conversion loop (lines 113 to 119 of
`convert_repo.py`): the parsed value is camelized and re-serialized, and the
file counts as changed exactly when the new text differs from the original
text. -/
def convertChanged (original_text : String) (v : PyVal) : Bool :=
  !(dump_json_pretty (camelize_keys_deep v) == original_text)

/-- The `changed` tally of a second run over the normalizer's own output:
each file's current text is the serialization of its parsed value. -/
def changedCount (files : List PyVal) : Nat :=
  (files.filter (fun v => convertChanged (dump_json_pretty v) v)).length

/-- A key that the claim calls already camelCase: no underscore, hyphen or
whitespace anywhere, and a first character unchanged by lower-casing. -/
def camelKeyB (s : String) : Bool :=
  match s.data with
  | [] => true
  | c :: rest => (c :: rest).all (fun x => !(x == '_' || x == '-' || isPySpace x)) &&
      (Char.toLower c == c)

/-- Pairwise distinctness of a key list; `json.loads` collapses duplicate
keys, so every parsed JSON object satisfies it. -/
def keysDistinctB : List String → Bool
  | [] => true
  | k :: r => !(r.contains k) && keysDistinctB r

mutual

/-- A JSON value all of whose object keys, at every depth, are distinct and
already camelCase in the claim's sense. -/
def camelJsonB : PyVal → Bool
  | .list l => camelJsonListB l
  | .dict d => keysDistinctB (d.map Prod.fst) && camelJsonDictB d
  | _ => true

/-- The list form of `camelJsonB`. -/
def camelJsonListB : List PyVal → Bool
  | [] => true
  | v :: vs => camelJsonB v && camelJsonListB vs

/-- The dict form of `camelJsonB`. -/
def camelJsonDictB : List (String × PyVal) → Bool
  | [] => true
  | (k, v) :: rest => camelKeyB k && camelJsonB v && camelJsonDictB rest

end

/-! Helper lemmas. -/

theorem string_data_inj {s t : String} (h : s.data = t.data) : s = t := by
  cases s; cases t; subst h; rfl

theorem char_toNat_inj {c d : Char} (h : c.toNat = d.toNat) : c = d :=
  Char.ext (UInt32.ext h)

theorem lookup_cons (k a : String) (b : PyVal) (t : List (String × PyVal)) :
    ((a, b) :: t).lookup k = if k = a then some b else t.lookup k := by
  by_cases hk : k = a
  · simp [List.lookup, hk]
  · have h2 : (k == a) = false := beq_eq_false_iff_ne.mpr hk
    simp [List.lookup, h2, hk]

theorem chCmpLe_refl : ∀ a, chCmpLe a a = true
  | [] => rfl
  | c :: cs => by simp [chCmpLe, chCmpLe_refl cs]

theorem chCmpLe_total : ∀ a b, chCmpLe a b = true ∨ chCmpLe b a = true
  | [], _ => Or.inl rfl
  | _ :: _, [] => Or.inr rfl
  | c :: cs, d :: ds => by
    by_cases h1 : c.toNat < d.toNat
    · left; simp [chCmpLe, h1]
    by_cases h2 : d.toNat < c.toNat
    · right; simp [chCmpLe, h2]
    rcases chCmpLe_total cs ds with h | h
    · left; simp [chCmpLe, h1, h2, h]
    · right; simp [chCmpLe, h1, h2, h]

theorem chCmpLe_true_elim {c d : Char} {cs ds : List Char}
    (h : chCmpLe (c :: cs) (d :: ds) = true) :
    c.toNat < d.toNat ∨ (c.toNat = d.toNat ∧ chCmpLe cs ds = true) := by
  by_cases h1 : c.toNat < d.toNat
  · exact Or.inl h1
  by_cases h2 : d.toNat < c.toNat
  · simp [chCmpLe, h1, h2] at h
  · right
    refine ⟨by omega, ?_⟩
    simpa [chCmpLe, h1, h2] using h

theorem chCmpLe_trans : ∀ a b c, chCmpLe a b = true → chCmpLe b c = true → chCmpLe a c = true
  | [], _, _, _, _ => rfl
  | _ :: _, [], _, h1, _ => by simp [chCmpLe] at h1
  | _ :: _, _ :: _, [], _, h2 => by simp [chCmpLe] at h2
  | x :: xs, y :: ys, z :: zs, h1, h2 => by
    rcases chCmpLe_true_elim h1 with hl1 | ⟨he1, hr1⟩ <;>
      rcases chCmpLe_true_elim h2 with hl2 | ⟨he2, hr2⟩
    · have : x.toNat < z.toNat := by omega
      simp [chCmpLe, this]
    · have : x.toNat < z.toNat := by omega
      simp [chCmpLe, this]
    · have : x.toNat < z.toNat := by omega
      simp [chCmpLe, this]
    · have hxz : x.toNat = z.toNat := by omega
      simp [chCmpLe, hxz, chCmpLe_trans xs ys zs hr1 hr2]

theorem chCmpLe_antisymm : ∀ a b, chCmpLe a b = true → chCmpLe b a = true → a = b
  | [], [], _, _ => rfl
  | [], _ :: _, _, h2 => by simp [chCmpLe] at h2
  | _ :: _, [], h1, _ => by simp [chCmpLe] at h1
  | x :: xs, y :: ys, h1, h2 => by
    rcases chCmpLe_true_elim h1 with hl1 | ⟨he1, hr1⟩ <;>
      rcases chCmpLe_true_elim h2 with hl2 | ⟨he2, hr2⟩ <;>
      try omega
    rw [char_toNat_inj he1, chCmpLe_antisymm xs ys hr1 hr2]

theorem pySorted_eq_of_perm {l m : List String} (h : l.Perm m) :
    pySortedStrings l = pySortedStrings m := by
  haveI : IsTotal String pyStrLe := ⟨fun a b => chCmpLe_total a.data b.data⟩
  haveI : IsTrans String pyStrLe := ⟨fun a b c => chCmpLe_trans a.data b.data c.data⟩
  haveI : IsAntisymm String pyStrLe :=
    ⟨fun a b h1 h2 => string_data_inj (chCmpLe_antisymm a.data b.data h1 h2)⟩
  exact List.eq_of_perm_of_sorted
    ((List.perm_insertionSort _ l).trans (h.trans (List.perm_insertionSort _ m).symm))
    (List.sorted_insertionSort _ l) (List.sorted_insertionSort _ m)

theorem mem_pySorted {l : List String} {k : String} :
    k ∈ pySortedStrings l ↔ k ∈ l :=
  (List.perm_insertionSort pyStrLe l).mem_iff

theorem lookup_eq_some_of_mem :
    ∀ {l : List (String × PyVal)}, (l.map Prod.fst).Nodup →
      ∀ {k : String} {v : PyVal}, (k, v) ∈ l → l.lookup k = some v := by
  intro l
  induction l with
  | nil => intro _ k v h; simp at h
  | cons p t ih =>
    intro hn k v h
    obtain ⟨a, b⟩ := p
    have hn2 := List.nodup_cons.mp (show (a :: t.map Prod.fst).Nodup from hn)
    rw [lookup_cons]
    rcases List.mem_cons.mp h with heq | hmem
    · injection heq with h1 h2
      subst h1; subst h2
      simp
    · by_cases hk : k = a
      · subst hk
        exact absurd (List.mem_map.mpr ⟨(k, v), hmem, rfl⟩) hn2.1
      · rw [if_neg hk]
        exact ih hn2.2 hmem

theorem mem_of_lookup_eq_some :
    ∀ {l : List (String × PyVal)} {k : String} {v : PyVal},
      l.lookup k = some v → (k, v) ∈ l := by
  intro l
  induction l with
  | nil => intro k v h; simp [List.lookup] at h
  | cons p t ih =>
    intro k v h
    obtain ⟨a, b⟩ := p
    rw [lookup_cons] at h
    by_cases hk : k = a
    · rw [if_pos hk] at h
      injection h with hv
      exact List.mem_cons.mpr (Or.inl (by rw [hk, ← hv]))
    · rw [if_neg hk] at h
      exact List.mem_cons.mpr (Or.inr (ih h))

theorem lookup_eq_of_perm {l m : List (String × PyVal)}
    (hn : (l.map Prod.fst).Nodup) (h : l.Perm m) (k : String) :
    l.lookup k = m.lookup k := by
  have hm : (m.map Prod.fst).Nodup := ((h.map Prod.fst).nodup_iff).mp hn
  cases hx : l.lookup k with
  | some v =>
    exact (lookup_eq_some_of_mem hm (h.mem_iff.mp (mem_of_lookup_eq_some hx))).symm
  | none =>
    cases hy : m.lookup k with
    | some w =>
      have := lookup_eq_some_of_mem hn (h.mem_iff.mpr (mem_of_lookup_eq_some hy))
      rw [hx] at this
      exact absurd this (by simp)
    | none => rfl

theorem join_data_aux :
    ∀ (l : List String) (init : String),
      (List.foldl (fun r s => r ++ s) init l).data = init.data ++ (l.map String.data).flatten := by
  intro l
  induction l with
  | nil => intro init; simp
  | cons s t ih =>
    intro init
    simp [List.foldl_cons, ih (init ++ s), String.data_append]

theorem join_data (l : List String) :
    (String.join l).data = (l.map String.data).flatten := by
  show (List.foldl (fun r s => r ++ s) "" l).data = (l.map String.data).flatten
  rw [join_data_aux l ""]
  rfl

theorem utf8Bytes_join :
    ∀ l : List String, utf8Bytes (String.join l) = (l.map utf8Bytes).flatten := by
  intro l
  unfold utf8Bytes
  rw [join_data]
  induction l with
  | nil => rfl
  | cons s t ih => simp_all [List.map_append, List.flatten_append]

/-- C3 (amended): the fingerprint is the SHA-256 hexadecimal digest of the
UTF-8 bytes of the concatenation, in sorted key order and without delimiters,
of the canonical string forms of the values of the keys present in the
mapping (an absent key name simply does not occur in the iteration, which is
the same as contributing the empty string), where the canonical form of a
`null` value is the string `None`, not the empty string. -/
theorem fingerprint_concatenation_amended :
    (∀ fp fields_dict,
      calculate_sha256 fp fields_dict = sha256Hex (utf8Bytes (shaMsgStr fields_dict)))
    ∧ pyStr PyVal.none = "None" := by
  refine ⟨fun fp fields_dict => ?_, rfl⟩
  unfold calculate_sha256 shaMsgStr
  rw [utf8Bytes_join, List.map_map]
  rfl

/-- C3 counterexample: on the mapping sending the single field name `A` to
`null`, the implemented fingerprint hashes the string `None`, which differs
from the digest of the empty contribution that the claim prescribes for a
null value. -/
theorem fingerprint_null_serialization_cex :
    calculate_sha256 "path" [("A", PyVal.none)] ≠ claimFingerprint [("A", PyVal.none)] := by
  decide

/-- C7: the fingerprint only depends on the key-value pairs of the mapping,
not on their insertion order: permuting a duplicate-free mapping (and even
changing the unused file-path argument) yields the same digest. -/
theorem fingerprint_order_invariant (fp1 fp2 : String) (d1 d2 : List (String × PyVal))
    (hperm : d1.Perm d2) (hnodup : (d1.map Prod.fst).Nodup) :
    calculate_sha256 fp1 d1 = calculate_sha256 fp2 d2 := by
  unfold calculate_sha256
  have hkeys : pySortedStrings (d1.map Prod.fst) = pySortedStrings (d2.map Prod.fst) :=
    pySorted_eq_of_perm (hperm.map Prod.fst)
  rw [← hkeys]
  congr 1
  congr 1
  apply List.map_congr_left
  intro k _
  rw [lookup_eq_of_perm hnodup hperm k]

/-- Witness for C7 at a concrete pair of reordered mappings. -/
theorem fingerprint_order_invariant_witness :
    calculate_sha256 "p1" [("Label", PyVal.str "A"), ("Uuid", PyVal.str "u")] =
      calculate_sha256 "p2" [("Uuid", PyVal.str "u"), ("Label", PyVal.str "A")] :=
  fingerprint_order_invariant "p1" "p2" _ _
    (List.Perm.swap ("Uuid", PyVal.str "u") ("Label", PyVal.str "A") [])
    (by decide)

/-- C1 (code bug evidence): scanning a root whose only file is a prior
`index.json` output (a JSON array of manifest entries) does not skip that
file; the build emits a manifest entry for it, named after the stem `index`.
`process_json_files` filters only on the `.json` extension and has no
self-exclusion for `index.json`. -/
theorem index_self_inclusion_bug :
    (process_json_files "https://osintliar.com/"
        [⟨"index.json", "index.json",
          some (PyVal.list [PyVal.dict
            [("Name", PyVal.str "a"), ("Uuid", PyVal.str "u-a"),
             ("Label", PyVal.str "A"), ("Version", PyVal.str "1.0"),
             ("Description", PyVal.str "d"), ("UpdatedOn", PyVal.none),
             ("Sha256", PyVal.str "s"), ("Url", PyVal.str "https://x/a.json"),
             ("Type", PyVal.str "DiscoveryPlugin")]])⟩]).map
      (List.map (List.lookup "Name")) =
    .ok [some (PyVal.str "index")] := rfl

/-- C2 (amended): for every descriptor whose content is an array headed by an
object, the `updatedOn` placed in the manifest entry is copied verbatim from
the descriptor's own `UpdatedOn` field (`None` when absent); no build-time
clock is consulted anywhere in `build_index.py`. -/
theorem updatedOn_copied_from_descriptor (base rp fname : String)
    (d : List (String × PyVal)) (rest : List PyVal) :
    ∃ e, indexEntry base rp fname (PyVal.list (PyVal.dict d :: rest)) = .ok e
      ∧ e.lookup "UpdatedOn" = some ((d.lookup "UpdatedOn").getD PyVal.none) :=
  ⟨_, rfl, rfl⟩

/-- C2 counterexample: two descriptors identical except for their `UpdatedOn`
content produce manifest entries with the corresponding distinct `updatedOn`
values, so the emitted value does depend on the descriptor's own `UpdatedOn`
field (and is not a build-time stamp). -/
theorem updatedOn_from_descriptor_cex :
    ((indexEntry "b" "a.json" "a.json"
        (PyVal.list [PyVal.dict [("UpdatedOn", PyVal.str "2020-01-01 00:00:00")]])).map
      (List.lookup "UpdatedOn") = .ok (some (PyVal.str "2020-01-01 00:00:00")))
    ∧ ((indexEntry "b" "a.json" "a.json"
        (PyVal.list [PyVal.dict [("UpdatedOn", PyVal.str "1999-12-31 23:59:59")]])).map
      (List.lookup "UpdatedOn") = .ok (some (PyVal.str "1999-12-31 23:59:59")))
    ∧ PyVal.str "2020-01-01 00:00:00" ≠ PyVal.str "1999-12-31 23:59:59" := by
  refine ⟨rfl, rfl, fun h => ?_⟩
  injection h with h2
  exact absurd h2 (by decide)

theorem indexEntry_ok_keys :
    ∀ {base rp fname : String} {c : PyVal} {e : List (String × PyVal)},
      indexEntry base rp fname c = .ok e →
      e.map Prod.fst =
        ["Name", "Uuid", "Label", "Version", "Description", "UpdatedOn",
         "Sha256", "Url", "Type"] := by
  intro base rp fname c e h
  cases c with
  | none => simp [indexEntry, pyGetItemZero] at h
  | bool b => simp [indexEntry, pyGetItemZero] at h
  | int n => simp [indexEntry, pyGetItemZero] at h
  | dict d => simp [indexEntry, pyGetItemZero] at h
  | str s =>
    cases hsd : s.data with
    | nil => simp [indexEntry, pyGetItemZero, hsd] at h
    | cons a r => simp [indexEntry, pyGetItemZero, hsd] at h
  | list l =>
    cases l with
    | nil => simp [indexEntry, pyGetItemZero] at h
    | cons x r =>
      cases x with
      | none => simp [indexEntry, pyGetItemZero] at h
      | bool b => simp [indexEntry, pyGetItemZero] at h
      | int n => simp [indexEntry, pyGetItemZero] at h
      | str s2 => simp [indexEntry, pyGetItemZero] at h
      | list l2 => simp [indexEntry, pyGetItemZero] at h
      | dict d =>
        simp only [indexEntry, pyGetItemZero, Except.ok.injEq] at h
        rw [← h]
        rfl

/-- C4 (amended): every manifest entry emitted by the index builder has
exactly the nine fields `Name`, `Uuid`, `Label`, `Version`, `Description`,
`UpdatedOn`, `Sha256`, `Url`, `Type`; in particular no country field exists
and no `"us"` default is applied. -/
theorem entry_fields_exact (base : String) :
    ∀ (files : List ScanFile) (l : List (List (String × PyVal))),
      process_json_files base files = .ok l →
      ∀ e ∈ l,
        e.map Prod.fst =
          ["Name", "Uuid", "Label", "Version", "Description", "UpdatedOn",
           "Sha256", "Url", "Type"] := by
  intro files
  induction files with
  | nil =>
    intro l h e he
    injection h with h2
    subst h2
    simp at he
  | cons f fs ih =>
    intro l h e he
    unfold process_json_files at h
    split at h
    · split at h
      · exact ih l h e he
      · split at h
        · simp at h
        · rename_i c hp ent hE
          split at h
          · simp at h
          · rename_i rest hR
            injection h with h2
            subst h2
            rcases List.mem_cons.mp he with rfl | hm
            · exact indexEntry_ok_keys hE
            · exact ih rest hR e hm
    · exact ih l h e he

/-- Witness for C4 at the specification's own end-to-end example input. -/
theorem entry_fields_exact_witness :
    ([("Name", PyVal.str "a"), ("Uuid", PyVal.str "x"), ("Label", PyVal.str "A"),
      ("Version", PyVal.str "1.0"), ("Description", PyVal.none), ("UpdatedOn", PyVal.none),
      ("Sha256", PyVal.str "88a29223c56f5577a69864b199f9e0f3d6699271b86a50fab3bdf2634eeabed8"),
      ("Url", PyVal.str "https://example.com/pkgs/plugins/a.json"),
      ("Type", PyVal.str "DiscoveryPlugin")] : List (String × PyVal)).map Prod.fst =
      ["Name", "Uuid", "Label", "Version", "Description", "UpdatedOn",
       "Sha256", "Url", "Type"] :=
  entry_fields_exact "https://example.com/pkgs"
    [⟨"plugins/a.json", "a.json",
      some (PyVal.list [PyVal.dict
        [("Uuid", PyVal.str "x"), ("Label", PyVal.str "A"), ("Version", PyVal.str "1.0")]])⟩]
    _ rfl _ (List.mem_singleton.mpr rfl)

/-- C4 counterexample: a concrete build (whose descriptor even carries a
`Country` code) produces a manifest entry with neither a `country` nor a
`Country` field, refuting the claimed `"us"` default. -/
theorem entry_no_country_cex :
    (process_json_files "https://e"
        [⟨"a.json", "a.json",
          some (PyVal.list [PyVal.dict [("Country", PyVal.str "de")]])⟩]).map
      (List.map (fun e => (e.lookup "country", e.lookup "Country"))) =
    .ok [(Option.none, Option.none)] := rfl

theorem process_skip_file (base p n : String) :
    ∀ (xs ys : List ScanFile),
      process_json_files base (xs ++ ⟨p, n, Option.none⟩ :: ys) =
        process_json_files base (xs ++ ys) := by
  intro xs
  induction xs with
  | nil =>
    intro ys
    by_cases hn : pyEndsWith n ".json" <;> simp [process_json_files, hn]
  | cons f fs ih =>
    intro ys
    simp only [List.cons_append]
    unfold process_json_files
    rw [ih ys]

theorem process_all_good (base : String) :
    ∀ fs : List ScanFile, (∀ f ∈ fs, scanOkB base f = true) →
      process_json_files base fs = .ok (goodEntries base fs) := by
  intro fs
  induction fs with
  | nil => intro _; rfl
  | cons f t ih =>
    intro h
    have hf := h f (List.mem_cons_self f t)
    have ht := ih (fun g hg => h g (List.mem_cons_of_mem f hg))
    by_cases hn : pyEndsWith f.name ".json"
    · cases hp : f.parsed with
      | none => simp [scanOkB, hn, hp] at hf
      | some c =>
        cases hE : indexEntry base f.relPath f.name c with
        | error err => simp [scanOkB, hn, hp, hE, Except.toOption] at hf
        | ok ent =>
          simp [process_json_files, goodEntries, List.filterMap_cons, hn, hp, hE, ht,
            Except.toOption]
    · simp [process_json_files, goodEntries, List.filterMap_cons, hn]
      simpa [goodEntries] using ht

/-- C5: when one `.json` file of the walk fails to parse, the builder skips
exactly that file: the produced index equals the one of the walk without it,
the build still succeeds whenever the remaining files are well behaved, and
every other successfully parsed descriptor still contributes its manifest
entry (the printed skip message is outside the model). -/
theorem parse_failure_isolation (base p n : String) (xs ys : List ScanFile)
    (h : ∀ f ∈ xs ++ ys, scanOkB base f = true) :
    process_json_files base (xs ++ ⟨p, n, Option.none⟩ :: ys) =
      process_json_files base (xs ++ ys)
    ∧ process_json_files base (xs ++ ys) = .ok (goodEntries base (xs ++ ys))
    ∧ ∀ f ∈ xs ++ ys, ∀ c e, f.parsed = some c →
        pyEndsWith f.name ".json" = true →
        indexEntry base f.relPath f.name c = .ok e →
        e ∈ goodEntries base (xs ++ ys) := by
  refine ⟨process_skip_file base p n xs ys, process_all_good base _ h, ?_⟩
  intro f hf c e hp hn hE
  unfold goodEntries
  exact List.mem_filterMap.mpr ⟨f, hf, by simp [hn, hp, hE, Except.toOption]⟩

/-- Witness for C5: one valid descriptor next to one malformed `.json` file. -/
theorem parse_failure_isolation_witness :
    process_json_files "https://e"
        ([⟨"plugins/a.json", "a.json",
            some (PyVal.list [PyVal.dict [("Uuid", PyVal.str "u")]])⟩] ++
          ⟨"broken.json", "broken.json", Option.none⟩ ::
          ([] : List ScanFile)) =
      process_json_files "https://e"
        ([⟨"plugins/a.json", "a.json",
            some (PyVal.list [PyVal.dict [("Uuid", PyVal.str "u")]])⟩] ++ [])
    ∧ process_json_files "https://e"
        ([⟨"plugins/a.json", "a.json",
            some (PyVal.list [PyVal.dict [("Uuid", PyVal.str "u")]])⟩] ++ []) =
      .ok (goodEntries "https://e"
        ([⟨"plugins/a.json", "a.json",
            some (PyVal.list [PyVal.dict [("Uuid", PyVal.str "u")]])⟩] ++ []))
    ∧ ∀ f ∈ ([⟨"plugins/a.json", "a.json",
            some (PyVal.list [PyVal.dict [("Uuid", PyVal.str "u")]])⟩] ++
          ([] : List ScanFile)), ∀ c e, f.parsed = some c →
        pyEndsWith f.name ".json" = true →
        indexEntry "https://e" f.relPath f.name c = .ok e →
        e ∈ goodEntries "https://e"
          ([⟨"plugins/a.json", "a.json",
              some (PyVal.list [PyVal.dict [("Uuid", PyVal.str "u")]])⟩] ++ []) :=
  parse_failure_isolation "https://e" "broken.json" "broken.json" _ _
    (by intro f hf; rcases List.mem_append.mp hf with hx | hy
        · rw [List.mem_singleton.mp hx]; rfl
        · simp at hy)

theorem indexEntry_errs :
    ∀ {base rp fname : String} {c : PyVal},
      (∀ d r, c ≠ PyVal.list (PyVal.dict d :: r)) →
      ∃ e, indexEntry base rp fname c = .error e := by
  intro base rp fname c h
  cases c with
  | none => exact ⟨_, rfl⟩
  | bool b => exact ⟨_, rfl⟩
  | int n => exact ⟨_, rfl⟩
  | dict d => exact ⟨_, rfl⟩
  | str s =>
    cases hsd : s.data with
    | nil =>
      refine ⟨PyErr.indexError, ?_⟩
      simp [indexEntry, pyGetItemZero, hsd]
    | cons a r =>
      refine ⟨PyErr.attributeError, ?_⟩
      simp [indexEntry, pyGetItemZero, hsd]
  | list l =>
    cases l with
    | nil => exact ⟨_, rfl⟩
    | cons x r =>
      cases x with
      | dict d => exact absurd rfl (h d r)
      | none => exact ⟨_, rfl⟩
      | bool b => exact ⟨_, rfl⟩
      | int n => exact ⟨_, rfl⟩
      | str s2 => exact ⟨_, rfl⟩
      | list l2 => exact ⟨_, rfl⟩

/-- C6: a scanned `.json` file that parses to anything other than a
non-empty array headed by an object makes the field extraction raise, so the
whole build aborts with an uncaught exception and no index is produced. -/
theorem bad_shape_aborts_build (base : String) :
    ∀ (files : List ScanFile) (f : ScanFile) (c : PyVal),
      f ∈ files → pyEndsWith f.name ".json" = true → f.parsed = some c →
      (∀ d r, c ≠ PyVal.list (PyVal.dict d :: r)) →
      ∃ e, process_json_files base files = .error e := by
  intro files
  induction files with
  | nil => intro f c hf _ _ _; simp at hf
  | cons g t ih =>
    intro f c hf hn hp hshape
    rcases List.mem_cons.mp hf with rfl | hm
    · obtain ⟨e, he⟩ := @indexEntry_errs base f.relPath f.name c hshape
      refine ⟨e, ?_⟩
      simp [process_json_files, hn, hp, he]
    · obtain ⟨e, he⟩ := ih f c hm hn hp hshape
      by_cases hgn : pyEndsWith g.name ".json"
      · cases hgp : g.parsed with
        | none => refine ⟨e, ?_⟩; simp [process_json_files, hgn, hgp, he]
        | some cg =>
          cases hgE : indexEntry base g.relPath g.name cg with
          | error eg => refine ⟨eg, ?_⟩; simp [process_json_files, hgn, hgp, hgE]
          | ok entg => refine ⟨e, ?_⟩; simp [process_json_files, hgn, hgp, hgE, he]
      · refine ⟨e, ?_⟩; simp [process_json_files, hgn, he]

/-- Witness for C6: a `.json` file whose top level is an object aborts the
build. -/
theorem bad_shape_aborts_build_witness :
    ∃ e, process_json_files "https://e"
        [⟨"bad.json", "bad.json", some (PyVal.dict [])⟩] = .error e :=
  bad_shape_aborts_build "https://e" _ _ (PyVal.dict [])
    (List.mem_singleton.mpr rfl) rfl rfl
    (fun _ _ h => PyVal.noConfusion h)

theorem lookup_map_self (g : String → PyVal) :
    ∀ (L : List String) (k : String), k ∈ L →
      (L.map (fun x => (x, g x))).lookup k = some (g k) := by
  intro L
  induction L with
  | nil => intro k h; simp at h
  | cons a t ih =>
    intro k h
    simp only [List.map_cons]
    rw [lookup_cons]
    by_cases hk : k = a
    · subst hk; simp
    · rw [if_neg hk]
      refine ih k ?_
      rcases List.mem_cons.mp h with h1 | h2
      · exact absurd h1 hk
      · exact h2

theorem descriptor_fields_keys (c : List (String × PyVal)) :
    (descriptor_fields c).map Prod.fst = recognizedFields := rfl

theorem shaMsgStr_descriptor (c : List (String × PyVal)) :
    shaMsgStr (descriptor_fields c) =
      String.join ((pySortedStrings recognizedFields).map
        (fun k => pyStr ((c.lookup k).getD PyVal.none))) := by
  unfold shaMsgStr
  rw [descriptor_fields_keys]
  refine congrArg String.join (List.map_congr_left fun k hk => ?_)
  have hk2 : k ∈ recognizedFields := mem_pySorted.mp hk
  have hl : (descriptor_fields c).lookup k = some ((c.lookup k).getD PyVal.none) :=
    lookup_map_self (fun x => (c.lookup x).getD PyVal.none) recognizedFields k hk2
  rw [hl]
  rfl

theorem concat_ne_of_single_diff (F G : String → List Char) :
    ∀ (L : List String) (k : String), L.Nodup → k ∈ L →
      (∀ j ∈ L, j ≠ k → F j = G j) → F k ≠ G k →
      (L.map F).flatten ≠ (L.map G).flatten := by
  intro L
  induction L with
  | nil => intro k _ hk; simp at hk
  | cons a t ih =>
    intro k hnd hk hoth hne h
    simp only [List.map_cons, List.flatten_cons] at h
    have hnd2 := List.nodup_cons.mp hnd
    rcases List.mem_cons.mp hk with rfl | hm
    · have htail : t.map F = t.map G :=
        List.map_congr_left (fun j hj =>
          hoth j (List.mem_cons_of_mem _ hj) (fun hjk => hnd2.1 (hjk ▸ hj)))
      rw [htail] at h
      exact hne (List.append_cancel_right h)
    · have ha : F a = G a :=
        hoth a (List.mem_cons_self a t) (fun hak => hnd2.1 (hak.symm ▸ hm))
      rw [ha] at h
      exact ih k hnd2.2 hm
        (fun j hj hjk => hoth j (List.mem_cons_of_mem _ hj) hjk) hne
        (List.append_cancel_left h)

/-- C8 (amended): changing the value of a single recognized field changes the
concatenated canonical string whose UTF-8 bytes the fingerprint hashes,
provided the old and the new value have different canonical string forms (a
proviso the original claim lacks: `null` and the string `"None"` have the
same form `None`, and SHA-256 itself is a non-injective compression); and
changing only fields outside the recognized set never changes the
fingerprint. -/
theorem fingerprint_sensitivity_amended (c c2 : List (String × PyVal)) (k : String)
    (hk : k ∈ recognizedFields)
    (hoth : ∀ j ∈ recognizedFields, j ≠ k →
      (c.lookup j).getD PyVal.none = (c2.lookup j).getD PyVal.none)
    (hdiff : pyStr ((c.lookup k).getD PyVal.none) ≠ pyStr ((c2.lookup k).getD PyVal.none)) :
    shaMsgStr (descriptor_fields c) ≠ shaMsgStr (descriptor_fields c2)
    ∧ ∀ (c3 c4 : List (String × PyVal)) (fp1 fp2 : String),
        (∀ j ∈ recognizedFields,
          (c3.lookup j).getD PyVal.none = (c4.lookup j).getD PyVal.none) →
        calculate_sha256 fp1 (descriptor_fields c3) =
          calculate_sha256 fp2 (descriptor_fields c4) := by
  constructor
  · intro h
    rw [shaMsgStr_descriptor, shaMsgStr_descriptor] at h
    have hd := congrArg String.data h
    rw [join_data, join_data, List.map_map, List.map_map] at hd
    refine concat_ne_of_single_diff
      (fun j => (pyStr ((c.lookup j).getD PyVal.none)).data)
      (fun j => (pyStr ((c2.lookup j).getD PyVal.none)).data)
      (pySortedStrings recognizedFields) k (by decide) (mem_pySorted.mpr hk)
      (fun j hj hjk => by
        show (pyStr ((c.lookup j).getD PyVal.none)).data =
          (pyStr ((c2.lookup j).getD PyVal.none)).data
        rw [hoth j (mem_pySorted.mp hj) hjk])
      (fun hdata => hdiff (string_data_inj hdata)) hd
  · intro c3 c4 fp1 fp2 hsame
    have : descriptor_fields c3 = descriptor_fields c4 := by
      unfold descriptor_fields
      exact List.map_congr_left (fun j hj => by rw [hsame j hj])
    rw [this]
    unfold calculate_sha256
    rfl

/-- Witness for C8 at two descriptors differing only in their `Uuid` value. -/
theorem fingerprint_sensitivity_amended_witness :
    shaMsgStr (descriptor_fields [("Uuid", PyVal.str "a")]) ≠
      shaMsgStr (descriptor_fields [("Uuid", PyVal.str "b")])
    ∧ ∀ (c3 c4 : List (String × PyVal)) (fp1 fp2 : String),
        (∀ j ∈ recognizedFields,
          (c3.lookup j).getD PyVal.none = (c4.lookup j).getD PyVal.none) →
        calculate_sha256 fp1 (descriptor_fields c3) =
          calculate_sha256 fp2 (descriptor_fields c4) :=
  fingerprint_sensitivity_amended [("Uuid", PyVal.str "a")] [("Uuid", PyVal.str "b")] "Uuid"
    (by decide)
    (by intro j hj hne
        simp only [recognizedFields, List.mem_cons, List.not_mem_nil, or_false] at hj
        rcases hj with rfl | rfl | rfl | rfl | rfl | rfl | rfl | rfl <;>
          first | rfl | exact absurd rfl hne)
    (by decide)

/-- C8 counterexample: changing the single recognized field `UpdatedOn` from
`null` to the string `"None"` (all other recognized fields fixed) changes the
field value but leaves the fingerprint unchanged, because both values have
the canonical string form `None`. -/
theorem fingerprint_single_field_cex :
    (calculate_sha256 "p"
        (descriptor_fields [("Uuid", PyVal.str "u"), ("UpdatedOn", PyVal.none)]) =
      calculate_sha256 "p"
        (descriptor_fields [("Uuid", PyVal.str "u"), ("UpdatedOn", PyVal.str "None")]))
    ∧ ((([("Uuid", PyVal.str "u"), ("UpdatedOn", PyVal.none)] :
          List (String × PyVal)).lookup "UpdatedOn").getD PyVal.none ≠
        (([("Uuid", PyVal.str "u"), ("UpdatedOn", PyVal.str "None")] :
          List (String × PyVal)).lookup "UpdatedOn").getD PyVal.none)
    ∧ ∀ j ∈ recognizedFields, j ≠ "UpdatedOn" →
        (([("Uuid", PyVal.str "u"), ("UpdatedOn", PyVal.none)] :
          List (String × PyVal)).lookup j).getD PyVal.none =
        (([("Uuid", PyVal.str "u"), ("UpdatedOn", PyVal.str "None")] :
          List (String × PyVal)).lookup j).getD PyVal.none := by
  refine ⟨rfl, fun h => PyVal.noConfusion h, ?_⟩
  intro j hj hne
  simp only [recognizedFields, List.mem_cons, List.not_mem_nil, or_false] at hj
  rcases hj with rfl | rfl | rfl | rfl | rfl | rfl | rfl | rfl <;>
    first | rfl | exact absurd rfl hne

theorem band_elim {a b : Bool} (h : (a && b) = true) : a = true ∧ b = true := by
  constructor <;> simp_all

theorem no_sep_no_contains (l : List Char)
    (h : l.all (fun x => !(x == '_' || x == '-' || isPySpace x)) = true) :
    (l.contains '_' || l.contains '-' || l.contains ' ') = false := by
  have hmem : ∀ x ∈ l, (x == '_' || x == '-' || isPySpace x) = false := by
    intro x hx
    simpa using List.all_eq_true.mp h x hx
  have h1 : '_' ∉ l := fun hm => by simpa using hmem '_' hm
  have h2 : '-' ∉ l := fun hm => by simpa using hmem '-' hm
  have h3 : ' ' ∉ l := fun hm => by simpa [isPySpace] using hmem ' ' hm
  simp [h1, h2, h3]

theorem to_camel_id_of_camelKey : ∀ {s : String}, camelKeyB s = true → to_camel s = s := by
  intro s h
  obtain ⟨l⟩ := s
  cases l with
  | nil => rfl
  | cons c rest =>
    obtain ⟨hall, hfirst⟩ := band_elim
      (show ((c :: rest).all (fun x => !(x == '_' || x == '-' || isPySpace x)) &&
        (Char.toLower c == c)) = true from h)
    have hnc := no_sep_no_contains (c :: rest) hall
    show (if (c :: rest).contains '_' || (c :: rest).contains '-' || (c :: rest).contains ' '
      then String.mk (camelSub (lowerL (stripL (c :: rest))))
      else String.mk (Char.toLower c :: rest)) = String.mk (c :: rest)
    rw [hnc]
    simp [beq_iff_eq.mp hfirst]

theorem keysDistinctB_nodup : ∀ l : List String, keysDistinctB l = true → l.Nodup
  | [], _ => List.nodup_nil
  | k :: r, h => by
    obtain ⟨h1, h2⟩ := band_elim
      (show ((!(r.contains k)) && keysDistinctB r) = true from h)
    refine List.nodup_cons.mpr ⟨fun hm => ?_, keysDistinctB_nodup r h2⟩
    simp [hm] at h1

theorem pyDictSet_append :
    ∀ (out : List (String × PyVal)) (k : String) (v : PyVal),
      k ∉ out.map Prod.fst → pyDictSet out k v = out ++ [(k, v)]
  | [], _, _, _ => rfl
  | (a, b) :: t, k, v, h => by
    have h2 : ¬(k = a) ∧ k ∉ t.map Prod.fst := by
      simpa [not_or] using h
    have hak : (a == k) = false := beq_eq_false_iff_ne.mpr (fun e => h2.1 e.symm)
    show (if (a == k) = true then (a, v) :: t else (a, b) :: pyDictSet t k v) =
      (a, b) :: (t ++ [(k, v)])
    rw [hak]
    simp [pyDictSet_append t k v h2.2]

mutual

theorem camelize_id : ∀ v : PyVal, camelJsonB v = true → camelize_keys_deep v = v
  | .none, _ => rfl
  | .bool _, _ => rfl
  | .int _, _ => rfl
  | .str _, _ => rfl
  | .list l, h => by
    show PyVal.list (camelizeListGo l) = PyVal.list l
    rw [camelizeList_id l (show camelJsonListB l = true from h)]
  | .dict d, h => by
    have h2 := band_elim
      (show (keysDistinctB (d.map Prod.fst) && camelJsonDictB d) = true from h)
    show PyVal.dict (camelizeDictGo d []) = PyVal.dict d
    rw [camelizeDictGo_id d [] h2.2 (keysDistinctB_nodup _ h2.1) (fun k _ hm => by simp at hm)]
    rfl

theorem camelizeList_id : ∀ l : List PyVal, camelJsonListB l = true → camelizeListGo l = l
  | [], _ => rfl
  | v :: vs, h => by
    obtain ⟨h1, h2⟩ := band_elim
      (show (camelJsonB v && camelJsonListB vs) = true from h)
    show camelize_keys_deep v :: camelizeListGo vs = v :: vs
    rw [camelize_id v h1, camelizeList_id vs h2]

theorem camelizeDictGo_id :
    ∀ (d out : List (String × PyVal)),
      camelJsonDictB d = true →
      (d.map Prod.fst).Nodup →
      (∀ k, k ∈ d.map Prod.fst → k ∉ out.map Prod.fst) →
      camelizeDictGo d out = out ++ d
  | [], out, _, _, _ => by simp [camelizeDictGo]
  | (k, v) :: rest, out, hd, hnd, hout => by
    obtain ⟨h12, h3⟩ := band_elim
      (show ((camelKeyB k && camelJsonB v) && camelJsonDictB rest) = true from hd)
    obtain ⟨h1, h2⟩ := band_elim h12
    have hnd2 := List.nodup_cons.mp (show (k :: rest.map Prod.fst).Nodup from hnd)
    have hout2 : ∀ k2, k2 ∈ rest.map Prod.fst → k2 ∉ (out ++ [(k, v)]).map Prod.fst := by
      intro k2 hk2 hmem
      simp only [List.map_append, List.mem_append, List.map_cons, List.map_nil,
        List.mem_singleton] at hmem
      rcases hmem with hmo | hk2k
      · exact hout k2 (List.mem_cons_of_mem _ hk2) hmo
      · exact hnd2.1 (hk2k ▸ hk2)
    show camelizeDictGo rest (pyDictSet out (to_camel k) (camelize_keys_deep v)) =
      out ++ (k, v) :: rest
    rw [to_camel_id_of_camelKey h1, camelize_id v h2,
      pyDictSet_append out k v (hout k (List.mem_cons_self _ _)),
      camelizeDictGo_id rest (out ++ [(k, v)]) h3 hnd2.2 hout2]
    simp

end

/-- C10: on any JSON value all of whose object keys are already camelCase in
the claim's sense (and, as for every value `json.loads` can produce,
duplicate-free), the deep key transform is the identity, the per-file change
test of the normalizer compares two identical serializations, and a second
run over the normalizer's own output therefore reports zero changed files. -/
theorem camelize_idempotent_on_camel_input (files : List PyVal)
    (h : ∀ v ∈ files, camelJsonB v = true) :
    (∀ v ∈ files, camelize_keys_deep v = v
      ∧ convertChanged (dump_json_pretty v) v = false)
    ∧ changedCount files = 0 := by
  have hid : ∀ v ∈ files, camelize_keys_deep v = v := fun v hv => camelize_id v (h v hv)
  have hch : ∀ v ∈ files, convertChanged (dump_json_pretty v) v = false := by
    intro v hv
    unfold convertChanged
    rw [hid v hv]
    simp
  refine ⟨fun v hv => ⟨hid v hv, hch v hv⟩, ?_⟩
  unfold changedCount
  rw [List.filter_eq_nil_iff.mpr (fun v hv => by simp [hch v hv])]
  rfl

/-- Witness for C10 on a small already-camelized file list. -/
theorem camelize_idempotent_on_camel_input_witness :
    (∀ v ∈ [PyVal.dict [("aKey", PyVal.list [PyVal.str "x"]), ("b", PyVal.int 3)]],
      camelize_keys_deep v = v
      ∧ convertChanged (dump_json_pretty v) v = false)
    ∧ changedCount [PyVal.dict [("aKey", PyVal.list [PyVal.str "x"]), ("b", PyVal.int 3)]] = 0 :=
  camelize_idempotent_on_camel_input _
    (by intro v hv
        rw [List.mem_singleton.mp hv]
        decide)

theorem alnum_not_sep {c : Char} (h : isAsciiAlnum c = true) : isSepCh c = false := by
  cases hs : isSepCh c
  · rfl
  · exfalso
    simp only [isSepCh, isPySpace, Bool.or_eq_true, beq_iff_eq, or_assoc] at hs
    rcases hs with rfl | rfl | rfl | rfl | rfl | rfl | rfl | rfl <;>
      exact absurd h (by decide)

theorem dropWhile_append_of_all (p : Char → Bool) :
    ∀ (a : List Char) (d : Char) (r : List Char),
      (∀ x ∈ a, p x = true) → p d = false →
      (a ++ d :: r).dropWhile p = d :: r
  | [], d, r, _, hd => by simp [List.dropWhile_cons, hd]
  | x :: t, d, r, ha, hd => by
    have hx : p x = true := ha x (List.mem_cons_self _ _)
    simp [List.dropWhile_cons, hx,
      dropWhile_append_of_all p t d r (fun y hy => ha y (List.mem_cons_of_mem _ hy)) hd]

theorem camelRuleGo_all_sep :
    ∀ (b : Bool) (l : List Char), (∀ x ∈ l, isSepCh x = true) → camelRuleGo b l = l
  | _, [], _ => rfl
  | b, c :: rest, h => by
    have hc : isSepCh c = true := h c (List.mem_cons_self _ _)
    have hrest : ∀ x ∈ rest, isSepCh x = true := fun x hx => h x (List.mem_cons_of_mem _ hx)
    have hdw : rest.dropWhile isSepCh = [] :=
      List.dropWhile_eq_nil_iff.mpr (fun x hx => by simp [hrest x hx])
    simp [camelRuleGo, hc, hdw, camelRuleGo_all_sep true rest hrest]

theorem camelRuleGo_del_run :
    ∀ (run : List Char) (d : Char) (r2 : List Char),
      (∀ x ∈ run, isSepCh x = true) → isAsciiAlnum d = true →
      camelRuleGo true (run ++ d :: r2) = Char.toUpper d :: camelRuleGo false r2
  | [], d, r2, _, hd => by
    simp [camelRuleGo, alnum_not_sep hd, hd]
  | x :: t, d, r2, hrun, hd => by
    have hx : isSepCh x = true := hrun x (List.mem_cons_self _ _)
    have ht : ∀ y ∈ t, isSepCh y = true := fun y hy => hrun y (List.mem_cons_of_mem _ hy)
    have hdw : (t ++ d :: r2).dropWhile isSepCh = d :: r2 :=
      dropWhile_append_of_all _ t d r2 ht (alnum_not_sep hd)
    simp [camelRuleGo, hx, hdw, hd, camelRuleGo_del_run t d r2 ht hd]

theorem camelRuleGo_keep_run :
    ∀ (run : List Char) (d : Char) (r2 : List Char) (b : Bool),
      (∀ x ∈ run, isSepCh x = true) → isSepCh d = false → isAsciiAlnum d = false →
      camelRuleGo b (run ++ d :: r2) = run ++ d :: camelRuleGo false r2
  | [], d, r2, b, _, hds, hda => by
    simp [camelRuleGo, hds, hda]
  | x :: t, d, r2, b, hrun, hds, hda => by
    have hx : isSepCh x = true := hrun x (List.mem_cons_self _ _)
    have ht : ∀ y ∈ t, isSepCh y = true := fun y hy => hrun y (List.mem_cons_of_mem _ hy)
    have hdw : (t ++ d :: r2).dropWhile isSepCh = d :: r2 :=
      dropWhile_append_of_all _ t d r2 ht hds
    simp [camelRuleGo, hx, hdw, hda, camelRuleGo_keep_run t d r2 true ht hds hda]

theorem camelSubGo_eq_rule :
    ∀ (n : Nat) (l : List Char), l.length ≤ n → camelSubGo n l = camelRuleGo false l
  | 0, l, hn => by
    have hl : l = [] := List.eq_nil_of_length_eq_zero (Nat.le_zero.mp hn)
    subst hl; rfl
  | _ + 1, [], _ => rfl
  | n + 1, c :: rest, hn => by
    have hrn : rest.length ≤ n := by
      have := hn
      simp only [List.length_cons] at this
      omega
    by_cases hc : isSepCh c = true
    · cases hdw : rest.dropWhile isSepCh with
      | nil =>
        have hall : ∀ x ∈ rest, isSepCh x = true := by
          have := List.dropWhile_eq_nil_iff.mp hdw
          intro x hx
          simpa using this x hx
        simp [camelSubGo, camelRuleGo, hc, hdw, camelRuleGo_all_sep true rest hall]
      | cons d r2 =>
        have hds : isSepCh d = false := by
          have := List.head_dropWhile_not isSepCh rest
          rw [hdw] at this
          simpa [Bool.not_eq_true] using this
        have hrun : ∀ x ∈ rest.takeWhile isSepCh, isSepCh x = true :=
          fun x hx => List.mem_takeWhile_imp hx
        have hr2 : r2.length ≤ n := by
          have h1 : (rest.dropWhile isSepCh).length ≤ rest.length :=
            (List.dropWhile_sublist _).length_le
          rw [hdw] at h1
          simp only [List.length_cons] at h1
          omega
        have hsplit : rest.takeWhile isSepCh ++ d :: r2 = rest := by
          rw [← hdw]
          exact List.takeWhile_append_dropWhile isSepCh rest
        by_cases hd : isAsciiAlnum d = true
        · have hrhs : camelRuleGo true rest = Char.toUpper d :: camelRuleGo false r2 := by
            rw [← hsplit]
            exact camelRuleGo_del_run _ d r2 hrun hd
          simp [camelSubGo, camelRuleGo, hc, hdw, hd, hrhs, camelSubGo_eq_rule n r2 hr2]
        · have hda : isAsciiAlnum d = false := by simpa using hd
          have hrhs : camelRuleGo true rest =
              rest.takeWhile isSepCh ++ d :: camelRuleGo false r2 := by
            conv_lhs => rw [← hsplit]
            exact camelRuleGo_keep_run _ d r2 true hrun hds hda
          simp [camelSubGo, camelRuleGo, hc, hdw, hda, hrhs, camelSubGo_eq_rule n r2 hr2]
    · simp [camelSubGo, camelRuleGo, hc, camelSubGo_eq_rule n rest hrn]

theorem camelSub_eq_rule (l : List Char) : camelSub l = camelRuleGo false l :=
  camelSubGo_eq_rule l.length l le_rfl

theorem to_camel_eq_spec (s : String) : to_camel s = camelSpecAmended s := by
  obtain ⟨l⟩ := s
  cases l with
  | nil => rfl
  | cons c rest =>
    show (if (c :: rest).contains '_' || (c :: rest).contains '-' || (c :: rest).contains ' '
        then String.mk (camelSub (lowerL (stripL (c :: rest))))
        else String.mk (Char.toLower c :: rest)) =
      (if (c :: rest).contains '_' || (c :: rest).contains '-' || (c :: rest).contains ' '
        then String.mk (camelRuleGo false (lowerL (stripL (c :: rest))))
        else String.mk (Char.toLower c :: rest))
    rw [camelSub_eq_rule]

/-- C9 (amended): the four example mappings hold, and in general `to_camel`
acts as follows: a key containing an underscore, a hyphen or a space
character (space specifically, not arbitrary whitespace) is first stripped of
leading and trailing whitespace and lower-cased, and then every separator run
that is immediately followed by an ASCII alphanumeric character is deleted
with that character upper-cased, while separator runs not followed by an
alphanumeric character are kept verbatim; any other key has only its first
character lower-cased. -/
theorem to_camel_characterization :
    (∀ s : String, to_camel s = camelSpecAmended s)
    ∧ to_camel "user_id" = "userId"
    ∧ to_camel "Some-Field Name" = "someFieldName"
    ∧ to_camel "UUID" = "uUID"
    ∧ to_camel "alreadyCamel" = "alreadyCamel" :=
  ⟨to_camel_eq_spec, by decide, by decide, by decide, by decide⟩

/-- C9 counterexample: the key made of a space followed by `abc` contains
whitespace, so the claimed general rule lower-cases it and deletes the
leading separator run while upper-casing the following character, giving
`Abc`; the implementation strips the whitespace first and returns `abc`. -/
theorem to_camel_claim_rule_cex :
    to_camel " abc" = "abc" ∧ camelClaimRule " abc" = "Abc"
    ∧ to_camel " abc" ≠ camelClaimRule " abc" :=
  ⟨by decide, by decide, by decide⟩

end OsintPackages

